import Mathlib

/-!
# Verification of the DOXSET_RINN intersection transform

A shallow embedding, in Lean 4, of the leading-edge gene intersection
pipeline of this repository (`create_doxset_rinn_intersections.py`, plus the
header handling of `create_doxset_rinn_upset.py`), together with proofs of
the specified properties of the block parser, the aggregator and the
reporter.

Python strings are embedded as `List Char` (`Str`), so that every string
primitive used by the scripts (strip, split, lower, startswith, membership)
is a structurally recursive, kernel-computable Lean function with Python's
semantics.  Python `dict`s (which preserve insertion order) are embedded as
association lists, and Python `set`s as duplicate-free lists in insertion
order; the only set observations the scripts make are `len`, membership,
`add` and `sorted`, all order-insensitive or modelled exactly.  Python's
stable `list.sort`/`sorted` is embedded as insertion sort; every sort in
this pipeline is applied to a list whose sort keys are pairwise distinct
(genes are dict keys, datasets are set elements), and a sorted permutation
of such a list is unique, so the embedding computes exactly the list the
script computes.
-/

namespace GseaGallery

/-- Python strings, embedded as lists of characters. -/
abbrev Str := List Char

/-- Coerce a Lean string literal to the embedding. -/
def str (s : String) : Str := s.data

/-- The characters stripped by Python `str.strip()` (ASCII whitespace;
the inputs at hand are ASCII). -/
def isPySpace (c : Char) : Bool :=
  c = ' ' || c = '\t' || c = '\n' || c = '\r' || c = '\x0b' || c = '\x0c'

/-- Python `s.strip()`: remove leading and trailing whitespace. -/
def pyStrip (s : Str) : Str :=
  ((s.dropWhile isPySpace).reverse.dropWhile isPySpace).reverse

/-- Python `s.lower()` (ASCII case folding, as in `Char.toLower`). -/
def pyLower (s : Str) : Str := s.map Char.toLower

/-- Python `s.split("\t")`: split on every tab, keeping empty fields. -/
def splitTab : Str → List Str
  | [] => [[]]
  | c :: cs =>
    match splitTab cs with
    | [] => [[]]
    | g :: gs => if c = '\t' then [] :: g :: gs else (c :: g) :: gs

/-- The `while parts and parts[-1] == "": parts.pop()` loop: drop trailing
empty fields. -/
def dropTrailingEmpty (parts : List Str) : List Str :=
  (parts.reverse.dropWhile (fun p => p.isEmpty)).reverse

/-- Python `set.add`: sets are embedded as duplicate-free lists in insertion
order, so `add` appends the element unless it is already present. -/
def addToSet (xs : List Str) (x : Str) : List Str :=
  if x ∈ xs then xs else xs ++ [x]

/-- Python `dict.setdefault(k, set())` on a `dict` embedded as an
association list in insertion order. -/
def setdefaultEmpty (d : List (Str × List Str)) (k : Str) : List (Str × List Str) :=
  if k ∈ d.map Prod.fst then d else d ++ [(k, [])]

/-- Python `d[k].add(v)` on a `dict` of sets (with `defaultdict(set)`
semantics: a missing key is created; in the parser the key is always
already present, thanks to the preceding `setdefault`). -/
def dictAdd : List (Str × List Str) → Str → Str → List (Str × List Str)
  | [], k, v => [(k, [v])]
  | (k2, s) :: rest, k, v =>
    if k2 = k then (k2, addToSet s v) :: rest else (k2, s) :: dictAdd rest k v

/-- `[c.strip() for c in line.split("\t") if c.strip()]`. -/
def headerCols (line : Str) : List Str :=
  ((splitTab line).map pyStrip).filter (fun c => !c.isEmpty)

/-- The loop state of `parse_doxset_rinn_tsv`: the dataset→genes dict, the
current dataset, and the header column indices (`symbol_idx`, `core_idx`,
which Python sets exactly when `header_cols` is set). -/
structure ParseState where
  datasetsToGenes : List (Str × List Str)
  currentDataset : Option Str
  headerIdx : Option (Nat × Nat)
deriving DecidableEq

def initState : ParseState := ⟨[], none, none⟩

/-- `ValueError` message of Python `list.index(x)` when `x` is absent. -/
def indexErr (x : String) : Str := str ("'" ++ x ++ "' is not in list")

/-- One iteration of the line loop of
`create_doxset_rinn_intersections.parse_doxset_rinn_tsv`.  An uncaught
Python exception is embedded as `Except.error`. -/
def processLine (st : ParseState) (line : Str) : Except Str ParseState :=
  if (pyStrip line).isEmpty then .ok st
  else if ¬ ('\t' ∈ line) ∧ (str "GSE").isPrefixOf (pyStrip line) then
    .ok { datasetsToGenes := setdefaultEmpty st.datasetsToGenes (pyStrip line),
          currentDataset := some (pyStrip line),
          headerIdx := none }
  else if st.headerIdx = none ∧ (str "NAME\t").isPrefixOf line then
    let cols := headerCols line
    match cols.findIdx? (fun c => c = str "SYMBOL") with
    | none => .error (indexErr "SYMBOL")
    | some si =>
      match cols.findIdx? (fun c => c = str "CORE ENRICHMENT") with
      | none => .error (indexErr "CORE ENRICHMENT")
      | some ci => .ok { st with headerIdx := some (si, ci) }
  else
    match st.currentDataset, st.headerIdx with
    | some ds, some (si, ci) =>
      let parts := dropTrailingEmpty (splitTab line)
      if parts.length < max si ci + 1 then .ok st
      else if pyLower (pyStrip (parts.getD ci [])) = str "yes" then
        let symbol := pyStrip (parts.getD si [])
        if ¬ symbol.isEmpty then
          .ok { st with datasetsToGenes := dictAdd st.datasetsToGenes ds symbol }
        else .ok st
      else .ok st
    | _, _ => .ok st

/-- The `for raw_line in f` loop, with exception propagation. -/
def runLines (st : ParseState) : List Str → Except Str ParseState
  | [] => .ok st
  | l :: ls =>
    match processLine st l with
    | .error e => .error e
    | .ok st2 => runLines st2 ls

/-- `{k: v for k, v in datasets_to_genes.items() if v}`. -/
def dropEmptySets (d : List (Str × List Str)) : List (Str × List Str) :=
  d.filter (fun kv => !kv.2.isEmpty)

/-- `parse_doxset_rinn_tsv` of `create_doxset_rinn_intersections.py`,
applied to the list of lines of the input file. -/
def parse_doxset_rinn_tsv (lines : List Str) : Except Str (List (Str × List Str)) :=
  match runLines initState lines with
  | .error e => .error e
  | .ok st => .ok (dropEmptySets st.datasetsToGenes)

/-- `for g in genes: gene_to_datasets[g].add(ds)`. -/
def addGenes (acc : List (Str × List Str)) (ds : Str) : List Str → List (Str × List Str)
  | [] => acc
  | g :: gs => addGenes (dictAdd acc g ds) ds gs

/-- `for ds, genes in datasets_to_genes.items(): ...`. -/
def invertAux (acc : List (Str × List Str)) : List (Str × List Str) → List (Str × List Str)
  | [] => acc
  | (ds, genes) :: rest => invertAux (addGenes acc ds genes) rest

/-- `invert_to_gene_counts` of `create_doxset_rinn_intersections.py`. -/
def invert_to_gene_counts (d : List (Str × List Str)) : List (Str × List Str) :=
  invertAux [] d

/-- Python's code-point lexicographic `<=` on strings. -/
def lexLeB : Str → Str → Bool
  | [], _ => true
  | _ :: _, [] => false
  | a :: as, b :: bs => if a = b then lexLeB as bs else decide (a < b)

/-- Python string `<=`, as a proposition. -/
def strLe (a b : Str) : Prop := lexLeB a b = true

instance : DecidableRel strLe := fun a b => decEq (lexLeB a b) true

/-- Python string `<`, as a proposition. -/
def strLt (a b : Str) : Prop := lexLeB a b = true ∧ a ≠ b

/-- `sorted(ds_set)`: the unique sorted permutation of a duplicate-free
list of strings, computed by (stable) insertion sort. -/
def sortStrs (l : List Str) : List Str := List.insertionSort strLe l

/-- One row `(gene, len(ds_set), sorted(ds_set))` of the report. -/
abbrev Row := Str × Nat × List Str

/-- The list comprehension building `rows` in `write_csvs`. -/
def geneRows (gd : List (Str × List Str)) : List Row :=
  gd.map (fun kv => (kv.1, kv.2.length, sortStrs kv.2))

/-- `rows.sort(key=lambda x: (-x[1], x[0]))`: the tuple order on
`(-count, gene)`. -/
def rowLe (a b : Row) : Prop :=
  b.2.1 < a.2.1 ∨ (a.2.1 = b.2.1 ∧ strLe a.1 b.1)

instance : DecidableRel rowLe := fun a b => by unfold rowLe; infer_instance

/-- The sorted `rows` list of `write_csvs` (insertion sort computes the
unique sorted permutation, since genes are pairwise distinct dict keys). -/
def fullRows (gd : List (Str × List Str)) : List Row :=
  List.insertionSort rowLe (geneRows gd)

/-- `max_count = rows[0][1] if rows else 0`. -/
def maxCountOf : List Row → Nat
  | [] => 0
  | r :: _ => r.2.1

/-- The rows written to the max-only CSV: `if count == max_count`. -/
def maxRows (gd : List (Str × List Str)) : List Row :=
  (fullRows gd).filter (fun r => r.2.1 = maxCountOf (fullRows gd))

/-- `";".join(ds_list)` / `", ".join(header_cols)`. -/
def joinSep (sep : Str) : List Str → Str
  | [] => []
  | [x] => x
  | x :: y :: t => x ++ sep ++ joinSep sep (y :: t)

/-- `csv.writer` quotes a field containing the delimiter, the quote char,
or a line-terminator character. -/
def csvNeedsQuote (f : Str) : Bool :=
  decide (',' ∈ f) || decide ('"' ∈ f) || decide ('\r' ∈ f) || decide ('\n' ∈ f)

/-- `csv.writer` doubles embedded quote characters. -/
def csvEscapeQuotes : Str → Str
  | [] => []
  | c :: cs => if c = '"' then '"' :: '"' :: csvEscapeQuotes cs else c :: csvEscapeQuotes cs

def csvField (f : Str) : Str :=
  if csvNeedsQuote f then '"' :: (csvEscapeQuotes f ++ ['"']) else f

/-- `csv.writer.writerow`: comma-join the encoded fields, `\r\n` terminator. -/
def csvRow (fields : List Str) : Str :=
  joinSep (str ",") (fields.map csvField) ++ str "\r\n"

def natToStr (n : Nat) : Str := (Nat.toDigits 10 n)

/-- The three fields written for a row: `[gene, count, ";".join(ds_list)]`. -/
def rowFields (r : Row) : List Str := [r.1, natToStr r.2.1, joinSep [';'] r.2.2]

def csvHeaderFields : List Str := [str "SYMBOL", str "datasets_count", str "datasets"]

/-- The byte content of `DOXSET_RINN_intersections_full.csv`. -/
def fullCsv (gd : List (Str × List Str)) : Str :=
  csvRow csvHeaderFields ++ ((fullRows gd).map (fun r => csvRow (rowFields r))).flatten

/-- The byte content of `DOXSET_RINN_intersections_max_only.csv`. -/
def maxCsv (gd : List (Str × List Str)) : Str :=
  csvRow csvHeaderFields ++ ((maxRows gd).map (fun r => csvRow (rowFields r))).flatten

/-- `main()` of `create_doxset_rinn_intersections.py`: the exit code, and
the pair of written file contents (`none` when nothing is written).
An uncaught exception is `Except.error`. -/
def mainRun (lines : List Str) : Except Str (Nat × Option (Str × Str)) :=
  match parse_doxset_rinn_tsv lines with
  | .error e => .error e
  | .ok d =>
    if d.isEmpty then .ok (1, none)
    else
      .ok (0, some (fullCsv (invert_to_gene_counts d), maxCsv (invert_to_gene_counts d)))

/-- `RuntimeError` message of `create_doxset_rinn_upset.py` for a header
missing a required column. -/
def upsetHeaderErr (cols : List Str) : Str :=
  str "Expected 'SYMBOL' and 'CORE ENRICHMENT' in header, got: " ++ joinSep (str ", ") cols

/-- One iteration of the line loop of
`create_doxset_rinn_upset.parse_doxset_rinn_tsv`; identical to the
intersections script except for the header error message. -/
def processLineUpset (st : ParseState) (line : Str) : Except Str ParseState :=
  if (pyStrip line).isEmpty then .ok st
  else if ¬ ('\t' ∈ line) ∧ (str "GSE").isPrefixOf (pyStrip line) then
    .ok { datasetsToGenes := setdefaultEmpty st.datasetsToGenes (pyStrip line),
          currentDataset := some (pyStrip line),
          headerIdx := none }
  else if st.headerIdx = none ∧ (str "NAME\t").isPrefixOf line then
    let cols := headerCols line
    match cols.findIdx? (fun c => c = str "SYMBOL") with
    | none => .error (upsetHeaderErr cols)
    | some si =>
      match cols.findIdx? (fun c => c = str "CORE ENRICHMENT") with
      | none => .error (upsetHeaderErr cols)
      | some ci => .ok { st with headerIdx := some (si, ci) }
  else
    match st.currentDataset, st.headerIdx with
    | some ds, some (si, ci) =>
      let parts := dropTrailingEmpty (splitTab line)
      if parts.length < max si ci + 1 then .ok st
      else if pyLower (pyStrip (parts.getD ci [])) = str "yes" then
        let symbol := pyStrip (parts.getD si [])
        if ¬ symbol.isEmpty then
          .ok { st with datasetsToGenes := dictAdd st.datasetsToGenes ds symbol }
        else .ok st
      else .ok st
    | _, _ => .ok st

def runLinesUpset (st : ParseState) : List Str → Except Str ParseState
  | [] => .ok st
  | l :: ls =>
    match processLineUpset st l with
    | .error e => .error e
    | .ok st2 => runLinesUpset st2 ls

/-- `parse_doxset_rinn_tsv` of `create_doxset_rinn_upset.py` (which also
raises when no genes were parsed at all). -/
def parse_doxset_rinn_tsv_upset (lines : List Str) : Except Str (List (Str × List Str)) :=
  match runLinesUpset initState lines with
  | .error e => .error e
  | .ok st =>
    if (dropEmptySets st.datasetsToGenes).isEmpty then
      .error (str "No leading-edge genes parsed from the TSV. Check file format and path.")
    else .ok (dropEmptySets st.datasetsToGenes)

/-! ## Dictionary and set lemmas -/

/-- The key list (Python `dict` keys, in insertion order). -/
def keysOf (d : List (Str × List Str)) : List Str := d.map Prod.fst

/-- Python `d[k]` (with `[]` for a missing key; in the pipeline a key is
present exactly when its value is wanted). -/
def lookupVal (d : List (Str × List Str)) (k : Str) : List Str :=
  match d.find? (fun kv => decide (kv.1 = k)) with
  | none => []
  | some kv => kv.2

theorem lookupVal_nil (k : Str) : lookupVal [] k = [] := rfl

theorem lookupVal_cons_self (k : Str) (s : List Str) (rest : List (Str × List Str)) :
    lookupVal ((k, s) :: rest) k = s := by
  unfold lookupVal
  rw [List.find?_cons_of_pos _ (by simp)]

theorem lookupVal_cons_ne {k k2 : Str} (h : k2 ≠ k) (s : List Str)
    (rest : List (Str × List Str)) :
    lookupVal ((k2, s) :: rest) k = lookupVal rest k := by
  unfold lookupVal
  rw [List.find?_cons_of_neg _ (by simp [h])]

theorem mem_addToSet {s : List Str} {v x : Str} :
    x ∈ addToSet s v ↔ x ∈ s ∨ x = v := by
  unfold addToSet
  by_cases h : v ∈ s
  · rw [if_pos h]
    constructor
    · exact Or.inl
    · rintro (hx | rfl)
      · exact hx
      · exact h
  · rw [if_neg h]
    simp

theorem addToSet_nodup {s : List Str} (h : s.Nodup) (v : Str) :
    (addToSet s v).Nodup := by
  unfold addToSet
  by_cases hv : v ∈ s
  · rwa [if_pos hv]
  · rw [if_neg hv]
    exact ((List.perm_append_singleton v s).nodup_iff).mpr (List.nodup_cons.mpr ⟨hv, h⟩)

theorem addToSet_ne_nil {s : List Str} {v : Str} : addToSet s v ≠ [] := by
  unfold addToSet
  by_cases hv : v ∈ s
  · rw [if_pos hv]
    rintro rfl
    simp at hv
  · rw [if_neg hv]
    simp

theorem addToSet_idem (s : List Str) (v : Str) :
    addToSet (addToSet s v) v = addToSet s v := by
  have hv : v ∈ addToSet s v := mem_addToSet.mpr (Or.inr rfl)
  show (if v ∈ addToSet s v then addToSet s v else addToSet s v ++ [v]) = addToSet s v
  rw [if_pos hv]

theorem subset_addToSet (s : List Str) (v : Str) : s ⊆ addToSet s v :=
  fun _ hx => mem_addToSet.mpr (Or.inl hx)

theorem keysOf_dictAdd (d : List (Str × List Str)) (k v : Str) :
    keysOf (dictAdd d k v) = if k ∈ keysOf d then keysOf d else keysOf d ++ [k] := by
  induction d with
  | nil => simp [dictAdd, keysOf]
  | cons kv rest ih =>
    obtain ⟨k2, s⟩ := kv
    by_cases hk : k2 = k
    · subst hk
      simp [dictAdd, keysOf]
    · simp only [dictAdd, if_neg hk, keysOf, List.map_cons] at ih ⊢
      rw [ih]
      by_cases hmem : k ∈ rest.map Prod.fst
      · rw [if_pos hmem, if_pos (List.mem_cons_of_mem _ hmem)]
      · have hni : k ∉ (k2 :: rest.map Prod.fst) := by
          simp only [List.mem_cons]
          rintro (h | h)
          · exact hk h.symm
          · exact hmem h
        rw [if_neg hmem, if_neg hni]
        simp

theorem keysOf_dictAdd_nodup {d : List (Str × List Str)} (h : (keysOf d).Nodup)
    (k v : Str) : (keysOf (dictAdd d k v)).Nodup := by
  rw [keysOf_dictAdd]
  by_cases hk : k ∈ keysOf d
  · rwa [if_pos hk]
  · rw [if_neg hk]
    exact ((List.perm_append_singleton k (keysOf d)).nodup_iff).mpr
      (List.nodup_cons.mpr ⟨hk, h⟩)

theorem lookupVal_dictAdd_self (d : List (Str × List Str)) (k v : Str) :
    lookupVal (dictAdd d k v) k = addToSet (lookupVal d k) v := by
  induction d with
  | nil =>
    show lookupVal [(k, [v])] k = addToSet [] v
    rw [lookupVal_cons_self]
    simp [addToSet]
  | cons kv rest ih =>
    obtain ⟨k2, s⟩ := kv
    by_cases hk : k2 = k
    · subst hk
      rw [show dictAdd ((k2, s) :: rest) k2 v = (k2, addToSet s v) :: rest by
        simp [dictAdd]]
      rw [lookupVal_cons_self, lookupVal_cons_self]
    · rw [show dictAdd ((k2, s) :: rest) k v = (k2, s) :: dictAdd rest k v by
        simp [dictAdd, hk]]
      rw [lookupVal_cons_ne hk, lookupVal_cons_ne hk]
      exact ih

theorem lookupVal_dictAdd_ne (d : List (Str × List Str)) {k k2 : Str} (v : Str)
    (h : k2 ≠ k) : lookupVal (dictAdd d k v) k2 = lookupVal d k2 := by
  induction d with
  | nil =>
    show lookupVal [(k, [v])] k2 = lookupVal [] k2
    rw [lookupVal_cons_ne (Ne.symm h)]
  | cons kv rest ih =>
    obtain ⟨k3, s⟩ := kv
    by_cases hk : k3 = k
    · subst hk
      rw [show dictAdd ((k3, s) :: rest) k3 v = (k3, addToSet s v) :: rest by
        simp [dictAdd]]
      rw [lookupVal_cons_ne (by rintro rfl; exact h rfl),
        lookupVal_cons_ne (by rintro rfl; exact h rfl)]
    · rw [show dictAdd ((k3, s) :: rest) k v = (k3, s) :: dictAdd rest k v by
        simp [dictAdd, hk]]
      by_cases hk2 : k3 = k2
      · subst hk2
        rw [lookupVal_cons_self, lookupVal_cons_self]
      · rw [lookupVal_cons_ne hk2, lookupVal_cons_ne hk2]
        exact ih

theorem dictAdd_values_nodup {d : List (Str × List Str)}
    (h : ∀ kv ∈ d, kv.2.Nodup) (k v : Str) :
    ∀ kv ∈ dictAdd d k v, kv.2.Nodup := by
  induction d with
  | nil =>
    intro kv hkv
    simp only [dictAdd, List.mem_singleton] at hkv
    subst hkv
    simp
  | cons kv0 rest ih =>
    obtain ⟨k2, s⟩ := kv0
    intro kv hkv
    by_cases hk : k2 = k
    · subst hk
      rw [show dictAdd ((k2, s) :: rest) k2 v = (k2, addToSet s v) :: rest by
        simp [dictAdd]] at hkv
      rcases List.mem_cons.mp hkv with rfl | hkv
      · exact addToSet_nodup (h (k2, s) (List.mem_cons_self _ _)) v
      · exact h kv (List.mem_cons_of_mem _ hkv)
    · rw [show dictAdd ((k2, s) :: rest) k v = (k2, s) :: dictAdd rest k v by
        simp [dictAdd, hk]] at hkv
      rcases List.mem_cons.mp hkv with rfl | hkv
      · exact h (k2, s) (List.mem_cons_self _ _)
      · exact ih (fun kv2 hkv2 => h kv2 (List.mem_cons_of_mem _ hkv2)) kv hkv

theorem lookupVal_eq_of_mem {d : List (Str × List Str)} {k : Str} {v : List Str}
    (hnd : (keysOf d).Nodup) (h : (k, v) ∈ d) : lookupVal d k = v := by
  induction d with
  | nil => simp at h
  | cons kv rest ih =>
    obtain ⟨k2, s⟩ := kv
    have hnd2 : k2 ∉ keysOf rest ∧ (keysOf rest).Nodup := by
      simpa [keysOf] using hnd
    rcases List.mem_cons.mp h with heq | hmem
    · obtain ⟨rfl, rfl⟩ := Prod.mk.injEq .. ▸ heq
      exact lookupVal_cons_self k v rest
    · have hk2 : k2 ≠ k := by
        rintro rfl
        exact hnd2.1 (by simpa [keysOf] using List.mem_map_of_mem Prod.fst hmem)
      rw [lookupVal_cons_ne hk2]
      exact ih hnd2.2 hmem

theorem mem_of_lookupVal {d : List (Str × List Str)} {k : Str}
    (h : k ∈ keysOf d) : (k, lookupVal d k) ∈ d := by
  induction d with
  | nil => simp [keysOf] at h
  | cons kv rest ih =>
    obtain ⟨k2, s⟩ := kv
    by_cases hk : k2 = k
    · subst hk
      rw [lookupVal_cons_self]
      exact List.mem_cons_self _ _
    · have hmem : k ∈ keysOf rest := by
        have h2 : k ∈ k2 :: keysOf rest := h
        rcases List.mem_cons.mp h2 with heq | hm
        · exact absurd heq.symm hk
        · exact hm
      rw [lookupVal_cons_ne hk]
      exact List.mem_cons_of_mem _ (ih hmem)

theorem lookupVal_setdefaultEmpty (d : List (Str × List Str)) (k k2 : Str) :
    lookupVal (setdefaultEmpty d k) k2 = lookupVal d k2 := by
  unfold setdefaultEmpty
  by_cases hk : k ∈ d.map Prod.fst
  · rw [if_pos hk]
  · rw [if_neg hk]
    unfold lookupVal
    rw [List.find?_append]
    cases hfind : d.find? (fun kv => decide (kv.1 = k2)) with
    | some kv => simp
    | none =>
      simp only [Option.none_or]
      by_cases hkk : k = k2
      · subst hkk
        simp [List.find?]
      · simp [List.find?, hkk]

theorem keysOf_setdefaultEmpty (d : List (Str × List Str)) (k : Str) :
    keysOf (setdefaultEmpty d k) = if k ∈ keysOf d then keysOf d else keysOf d ++ [k] := by
  unfold setdefaultEmpty keysOf
  by_cases hk : k ∈ d.map Prod.fst
  · rw [if_pos hk, if_pos hk]
  · rw [if_neg hk, if_neg hk]
    simp

theorem keysOf_setdefaultEmpty_nodup {d : List (Str × List Str)}
    (h : (keysOf d).Nodup) (k : Str) : (keysOf (setdefaultEmpty d k)).Nodup := by
  rw [keysOf_setdefaultEmpty]
  by_cases hk : k ∈ keysOf d
  · rwa [if_pos hk]
  · rw [if_neg hk]
    exact ((List.perm_append_singleton k (keysOf d)).nodup_iff).mpr
      (List.nodup_cons.mpr ⟨hk, h⟩)

theorem setdefaultEmpty_values_nodup {d : List (Str × List Str)}
    (h : ∀ kv ∈ d, kv.2.Nodup) (k : Str) :
    ∀ kv ∈ setdefaultEmpty d k, kv.2.Nodup := by
  unfold setdefaultEmpty
  by_cases hk : k ∈ d.map Prod.fst
  · rw [if_pos hk]
    exact h
  · rw [if_neg hk]
    intro kv hkv
    rcases List.mem_append.mp hkv with hm | hm
    · exact h kv hm
    · rcases List.mem_singleton.mp hm with rfl
      simp

/-! ## Inversion lemmas -/

theorem mem_keysOf_dictAdd {d : List (Str × List Str)} {x k : Str} (v : Str) :
    x ∈ keysOf (dictAdd d k v) ↔ x ∈ keysOf d ∨ x = k := by
  rw [keysOf_dictAdd]
  by_cases hk : k ∈ keysOf d
  · rw [if_pos hk]
    constructor
    · exact Or.inl
    · rintro (h | rfl)
      · exact h
      · exact hk
  · rw [if_neg hk]
    simp

theorem lookupVal_addGenes (g ds : Str) :
    ∀ (genes : List Str) (acc : List (Str × List Str)),
      lookupVal (addGenes acc ds genes) g =
        if g ∈ genes then addToSet (lookupVal acc g) ds else lookupVal acc g := by
  intro genes
  induction genes with
  | nil => intro acc; simp [addGenes]
  | cons g2 gs ih =>
    intro acc
    show lookupVal (addGenes (dictAdd acc g2 ds) ds gs) g = _
    rw [ih]
    by_cases hg2 : g2 = g
    · subst hg2
      rw [lookupVal_dictAdd_self]
      by_cases hgs : g2 ∈ gs
      · rw [if_pos hgs, if_pos (List.mem_cons_self _ _), addToSet_idem]
      · rw [if_neg hgs, if_pos (List.mem_cons_self _ _)]
    · rw [lookupVal_dictAdd_ne _ _ (fun h => hg2 h.symm)]
      by_cases hgs : g ∈ gs
      · rw [if_pos hgs, if_pos (List.mem_cons_of_mem _ hgs)]
      · rw [if_neg hgs, if_neg (by
          intro h
          rcases List.mem_cons.mp h with h2 | h2
          · exact hg2 h2.symm
          · exact hgs h2)]

theorem lookupVal_invertAux (g : Str) :
    ∀ (d : List (Str × List Str)) (acc : List (Str × List Str)),
      lookupVal (invertAux acc d) g =
        d.foldl (fun s kv => if g ∈ kv.2 then addToSet s kv.1 else s) (lookupVal acc g) := by
  intro d
  induction d with
  | nil => intro acc; rfl
  | cons kv rest ih =>
    intro acc
    obtain ⟨ds, genes⟩ := kv
    show lookupVal (invertAux (addGenes acc ds genes) rest) g = _
    rw [ih, List.foldl_cons, lookupVal_addGenes]

theorem foldl_addToSet_eq_append (g : Str) :
    ∀ (d : List (Str × List Str)) (s : List Str),
      (∀ kv ∈ d, kv.1 ∉ s) → (keysOf d).Nodup →
      d.foldl (fun s2 kv => if g ∈ kv.2 then addToSet s2 kv.1 else s2) s
        = s ++ (d.filter (fun kv => decide (g ∈ kv.2))).map Prod.fst := by
  intro d
  induction d with
  | nil => intro s _ _; simp
  | cons kv rest ih =>
    intro s hnotin hnd
    obtain ⟨ds, genes⟩ := kv
    have hdsnotin : ds ∉ s := hnotin (ds, genes) (List.mem_cons_self _ _)
    have hnd2 : ds ∉ keysOf rest ∧ (keysOf rest).Nodup := by
      simpa [keysOf] using hnd
    rw [List.foldl_cons]
    by_cases hg : g ∈ genes
    · have hstep : (if g ∈ (ds, genes).2 then addToSet s (ds, genes).1 else s) = s ++ [ds] := by
        rw [if_pos hg]
        unfold addToSet
        rw [if_neg hdsnotin]
      rw [hstep, ih (s ++ [ds]) ?hni hnd2.2]
      · rw [List.filter_cons_of_pos (by simpa using hg)]
        simp
      case hni =>
        intro kv2 hkv2
        rw [List.mem_append]
        rintro (hm | hm)
        · exact hnotin kv2 (List.mem_cons_of_mem _ hkv2) hm
        · rcases List.mem_singleton.mp hm with rfl
          exact hnd2.1 (by simpa [keysOf] using List.mem_map_of_mem Prod.fst hkv2)
    · have hstep : (if g ∈ (ds, genes).2 then addToSet s (ds, genes).1 else s) = s := if_neg hg
      rw [hstep, ih s (fun kv2 hkv2 => hnotin kv2 (List.mem_cons_of_mem _ hkv2)) hnd2.2]
      rw [List.filter_cons_of_neg (by simpa using hg)]

/-- The value of the gene→datasets index at `g`: exactly the keys of the
blocks whose gene set contains `g`, in block order. -/
theorem lookupVal_invert {d : List (Str × List Str)} (hnd : (keysOf d).Nodup) (g : Str) :
    lookupVal (invert_to_gene_counts d) g
      = (d.filter (fun kv => decide (g ∈ kv.2))).map Prod.fst := by
  unfold invert_to_gene_counts
  rw [lookupVal_invertAux, lookupVal_nil,
    foldl_addToSet_eq_append g d [] (by simp) hnd]
  simp

theorem mem_keysOf_addGenes {x ds : Str} :
    ∀ (genes : List Str) (acc : List (Str × List Str)),
      x ∈ keysOf (addGenes acc ds genes) ↔ x ∈ keysOf acc ∨ x ∈ genes := by
  intro genes
  induction genes with
  | nil => intro acc; simp [addGenes]
  | cons g2 gs ih =>
    intro acc
    show x ∈ keysOf (addGenes (dictAdd acc g2 ds) ds gs) ↔ _
    rw [ih, mem_keysOf_dictAdd]
    simp [List.mem_cons, or_assoc]

theorem mem_keysOf_invertAux {x : Str} :
    ∀ (d : List (Str × List Str)) (acc : List (Str × List Str)),
      x ∈ keysOf (invertAux acc d) ↔ x ∈ keysOf acc ∨ ∃ kv ∈ d, x ∈ kv.2 := by
  intro d
  induction d with
  | nil => intro acc; simp [invertAux]
  | cons kv rest ih =>
    intro acc
    obtain ⟨ds, genes⟩ := kv
    show x ∈ keysOf (invertAux (addGenes acc ds genes) rest) ↔ _
    rw [ih, mem_keysOf_addGenes]
    constructor
    · rintro ((h | h) | ⟨kv2, hkv2, hx⟩)
      · exact Or.inl h
      · exact Or.inr ⟨(ds, genes), List.mem_cons_self _ _, h⟩
      · exact Or.inr ⟨kv2, List.mem_cons_of_mem _ hkv2, hx⟩
    · rintro (h | ⟨kv2, hkv2, hx⟩)
      · exact Or.inl (Or.inl h)
      · rcases List.mem_cons.mp hkv2 with rfl | hm
        · exact Or.inl (Or.inr hx)
        · exact Or.inr ⟨kv2, hm, hx⟩

/-- A gene is a key of the inverted index iff some block's set contains it. -/
theorem mem_keysOf_invert {x : Str} {d : List (Str × List Str)} :
    x ∈ keysOf (invert_to_gene_counts d) ↔ ∃ kv ∈ d, x ∈ kv.2 := by
  unfold invert_to_gene_counts
  rw [mem_keysOf_invertAux]
  simp [keysOf]

theorem keysOf_addGenes_nodup {ds : Str} :
    ∀ (genes : List Str) {acc : List (Str × List Str)},
      (keysOf acc).Nodup → (keysOf (addGenes acc ds genes)).Nodup := by
  intro genes
  induction genes with
  | nil => intro acc h; exact h
  | cons g2 gs ih =>
    intro acc h
    exact ih (keysOf_dictAdd_nodup h g2 ds)

theorem keysOf_invertAux_nodup :
    ∀ (d : List (Str × List Str)) {acc : List (Str × List Str)},
      (keysOf acc).Nodup → (keysOf (invertAux acc d)).Nodup := by
  intro d
  induction d with
  | nil => intro acc h; exact h
  | cons kv rest ih =>
    intro acc h
    obtain ⟨ds, genes⟩ := kv
    exact ih (keysOf_addGenes_nodup genes h)

theorem keysOf_invert_nodup (d : List (Str × List Str)) :
    (keysOf (invert_to_gene_counts d)).Nodup :=
  keysOf_invertAux_nodup d (by simp [keysOf])

theorem addGenes_values_nodup {ds : Str} :
    ∀ (genes : List Str) {acc : List (Str × List Str)},
      (∀ kv ∈ acc, kv.2.Nodup) → ∀ kv ∈ addGenes acc ds genes, kv.2.Nodup := by
  intro genes
  induction genes with
  | nil => intro acc h; exact h
  | cons g2 gs ih =>
    intro acc h
    exact ih (dictAdd_values_nodup h g2 ds)

theorem invertAux_values_nodup :
    ∀ (d : List (Str × List Str)) {acc : List (Str × List Str)},
      (∀ kv ∈ acc, kv.2.Nodup) → ∀ kv ∈ invertAux acc d, kv.2.Nodup := by
  intro d
  induction d with
  | nil => intro acc h; exact h
  | cons kv rest ih =>
    intro acc h
    obtain ⟨ds, genes⟩ := kv
    exact ih (addGenes_values_nodup genes h)

theorem invert_values_nodup (d : List (Str × List Str)) :
    ∀ kv ∈ invert_to_gene_counts d, kv.2.Nodup :=
  invertAux_values_nodup d (by simp)

/-- The value stored for a key of the inverted index, explicitly. -/
theorem invert_values_eq {d : List (Str × List Str)} (hnd : (keysOf d).Nodup) :
    ∀ kv ∈ invert_to_gene_counts d,
      kv.2 = (d.filter (fun kv2 => decide (kv.1 ∈ kv2.2))).map Prod.fst := by
  intro kv hkv
  obtain ⟨g, v⟩ := kv
  have hk : g ∈ keysOf (invert_to_gene_counts d) := by
    simpa [keysOf] using List.mem_map_of_mem Prod.fst hkv
  have := lookupVal_eq_of_mem (keysOf_invert_nodup d) hkv
  rw [← this, lookupVal_invert hnd]

/-! ## Parser step lemmas and invariants -/

/-- Every successful parser step is one of: skip, start-a-block (dataset
line), record-header, or add-a-symbol to the current block's set. -/
theorem processLine_ok_cases {st : ParseState} {line : Str} {st2 : ParseState}
    (h : processLine st line = .ok st2) :
    st2 = st ∨
    st2 = ⟨setdefaultEmpty st.datasetsToGenes (pyStrip line), some (pyStrip line), none⟩ ∨
    (∃ si ci, st2 = { st with headerIdx := some (si, ci) }) ∨
    (∃ ds symbol, st.currentDataset = some ds ∧
      st2 = { st with datasetsToGenes := dictAdd st.datasetsToGenes ds symbol }) := by
  unfold processLine at h
  split at h
  · exact Or.inl (by cases h; rfl)
  · split at h
    · exact Or.inr (Or.inl (by cases h; rfl))
    · split at h
      · dsimp only at h
        split at h
        · cases h
        · split at h
          · cases h
          · exact Or.inr (Or.inr (Or.inl ⟨_, _, by cases h; rfl⟩))
      · split at h
        next ds si ci heq1 heq2 =>
          dsimp only at h
          split at h
          · exact Or.inl (by cases h; rfl)
          · split at h
            · split at h
              · exact Or.inr (Or.inr (Or.inr ⟨ds, _, heq1, by cases h; rfl⟩))
              · exact Or.inl (by cases h; rfl)
            · exact Or.inl (by cases h; rfl)
        next heq =>
          exact Or.inl (by cases h; rfl)

/-- The structural invariant of the parser dict: keys (dataset ids) are
pairwise distinct; each value is a set (duplicate-free). -/
def DictInv (st : ParseState) : Prop :=
  (keysOf st.datasetsToGenes).Nodup ∧ ∀ kv ∈ st.datasetsToGenes, kv.2.Nodup

theorem processLine_dictInv {st : ParseState} {line : Str} {st2 : ParseState}
    (hInv : DictInv st) (h : processLine st line = .ok st2) : DictInv st2 := by
  rcases processLine_ok_cases h with rfl | rfl | ⟨si, ci, rfl⟩ | ⟨ds, symbol, hds, rfl⟩
  · exact hInv
  · exact ⟨keysOf_setdefaultEmpty_nodup hInv.1 _, setdefaultEmpty_values_nodup hInv.2 _⟩
  · exact hInv
  · exact ⟨keysOf_dictAdd_nodup hInv.1 _ _, dictAdd_values_nodup hInv.2 _ _⟩

/-- A parser step never removes a gene from a block's set. -/
theorem processLine_mono {st : ParseState} {line : Str} {st2 : ParseState}
    (h : processLine st line = .ok st2) (k : Str) :
    lookupVal st.datasetsToGenes k ⊆ lookupVal st2.datasetsToGenes k := by
  rcases processLine_ok_cases h with rfl | rfl | ⟨si, ci, rfl⟩ | ⟨ds, symbol, hds, rfl⟩
  · exact fun x hx => hx
  · rw [show (⟨setdefaultEmpty st.datasetsToGenes (pyStrip line), some (pyStrip line),
      none⟩ : ParseState).datasetsToGenes = setdefaultEmpty st.datasetsToGenes (pyStrip line)
      from rfl]
    rw [lookupVal_setdefaultEmpty]
    exact fun x hx => hx
  · exact fun x hx => hx
  · show lookupVal st.datasetsToGenes k ⊆ lookupVal (dictAdd st.datasetsToGenes ds symbol) k
    by_cases hk : k = ds
    · subst hk
      rw [lookupVal_dictAdd_self]
      exact subset_addToSet _ _
    · rw [lookupVal_dictAdd_ne _ _ hk]
      exact fun x hx => hx

theorem runLines_dictInv :
    ∀ (ls : List Str) {st st2 : ParseState},
      DictInv st → runLines st ls = .ok st2 → DictInv st2 := by
  intro ls
  induction ls with
  | nil =>
    intro st st2 hInv h
    cases h
    exact hInv
  | cons l rest ih =>
    intro st st2 hInv h
    unfold runLines at h
    split at h
    · cases h
    next st3 heq => exact ih (processLine_dictInv hInv heq) h

theorem runLines_mono :
    ∀ (ls : List Str) {st st2 : ParseState},
      runLines st ls = .ok st2 → ∀ k,
      lookupVal st.datasetsToGenes k ⊆ lookupVal st2.datasetsToGenes k := by
  intro ls
  induction ls with
  | nil =>
    intro st st2 h k
    cases h
    exact fun x hx => hx
  | cons l rest ih =>
    intro st st2 h k
    unfold runLines at h
    split at h
    · cases h
    next st3 heq => exact fun x hx => ih h k (processLine_mono heq k hx)

/-- Exception propagation: the line loop processes a concatenation by
processing the two halves in order. -/
theorem runLines_append (st : ParseState) (l1 l2 : List Str) :
    runLines st (l1 ++ l2) =
      match runLines st l1 with
      | .error e => .error e
      | .ok st2 => runLines st2 l2 := by
  induction l1 generalizing st with
  | nil => rfl
  | cons l rest ih =>
    have hL : runLines st (l :: (rest ++ l2)) =
        match processLine st l with
        | .error e => .error e
        | .ok st2 => runLines st2 (rest ++ l2) := rfl
    have hR : runLines st (l :: rest) =
        match processLine st l with
        | .error e => .error e
        | .ok st2 => runLines st2 rest := rfl
    show runLines st (l :: (rest ++ l2)) =
      match runLines st (l :: rest) with
      | .error e => .error e
      | .ok st2 => runLines st2 l2
    rw [hL, hR]
    cases processLine st l with
    | error e => rfl
    | ok st2 => exact ih st2

theorem initState_dictInv : DictInv initState := by
  constructor
  · simp [initState, keysOf]
  · simp [initState]

/-- Invariants of a successful parse: dataset ids are pairwise distinct
and every gene set is duplicate-free. -/
theorem parse_ok_inv {lines : List Str} {d : List (Str × List Str)}
    (h : parse_doxset_rinn_tsv lines = .ok d) :
    (keysOf d).Nodup ∧ ∀ kv ∈ d, kv.2.Nodup := by
  unfold parse_doxset_rinn_tsv at h
  split at h
  · cases h
  next st heq =>
    cases h
    have hInv := runLines_dictInv lines initState_dictInv heq
    constructor
    · exact List.Nodup.sublist ((List.filter_sublist _).map Prod.fst) hInv.1
    · intro kv hkv
      exact hInv.2 kv (List.mem_of_mem_filter hkv)

/-- Every block surviving the final filter has a nonempty gene set. -/
theorem parse_ok_values_ne_nil {lines : List Str} {d : List (Str × List Str)}
    (h : parse_doxset_rinn_tsv lines = .ok d) :
    ∀ kv ∈ d, kv.2 ≠ [] := by
  unfold parse_doxset_rinn_tsv at h
  split at h
  · cases h
  next st heq =>
    cases h
    intro kv hkv
    have := List.of_mem_filter hkv
    simpa using this

/-! ## String order and sortedness lemmas -/

theorem lexLeB_refl (a : Str) : lexLeB a a = true := by
  induction a with
  | nil => rfl
  | cons c cs ih => simpa [lexLeB] using ih

theorem lexLeB_total : ∀ a b : Str, lexLeB a b = true ∨ lexLeB b a = true := by
  intro a
  induction a with
  | nil => intro b; exact Or.inl rfl
  | cons c cs ih =>
    intro b
    cases b with
    | nil => exact Or.inr rfl
    | cons c2 cs2 =>
      by_cases hc : c = c2
      · subst hc
        simpa [lexLeB] using ih cs2
      · rcases lt_or_gt_of_ne hc with hlt | hgt
        · exact Or.inl (by simp [lexLeB, hc, hlt])
        · exact Or.inr (by simp [lexLeB, Ne.symm hc, hgt])

theorem lexLeB_trans : ∀ a b c : Str,
    lexLeB a b = true → lexLeB b c = true → lexLeB a c = true := by
  intro a
  induction a with
  | nil => intro b c _ _; rfl
  | cons x xs ih =>
    intro b c h1 h2
    cases b with
    | nil => simp [lexLeB] at h1
    | cons y ys =>
      cases c with
      | nil => simp [lexLeB] at h2
      | cons z zs =>
        by_cases hxy : x = y
        · subst hxy
          simp only [lexLeB, if_pos rfl] at h1
          by_cases hyz : x = z
          · subst hyz
            simp only [lexLeB, if_pos rfl] at h2 ⊢
            exact ih ys zs h1 h2
          · simp only [lexLeB, if_neg hyz] at h2 ⊢
            exact h2
        · simp only [lexLeB, if_neg hxy, decide_eq_true_eq] at h1
          by_cases hyz : y = z
          · subst hyz
            simp [lexLeB, hxy, h1]
          · simp only [lexLeB, if_neg hyz, decide_eq_true_eq] at h2
            have hxz : x < z := lt_trans h1 h2
            simp [lexLeB, ne_of_lt hxz, hxz]

theorem lexLeB_antisymm : ∀ a b : Str,
    lexLeB a b = true → lexLeB b a = true → a = b := by
  intro a
  induction a with
  | nil =>
    intro b _ h2
    cases b with
    | nil => rfl
    | cons y ys => simp [lexLeB] at h2
  | cons x xs ih =>
    intro b h1 h2
    cases b with
    | nil => simp [lexLeB] at h1
    | cons y ys =>
      by_cases hxy : x = y
      · subst hxy
        simp only [lexLeB, if_pos rfl] at h1 h2
        rw [ih ys h1 h2]
      · simp only [lexLeB, if_neg hxy, decide_eq_true_eq] at h1
        simp only [lexLeB, if_neg (Ne.symm hxy), decide_eq_true_eq] at h2
        exact absurd h2 (lt_asymm h1)

instance : IsTotal Str strLe := ⟨fun a b => lexLeB_total a b⟩

instance : IsTrans Str strLe := ⟨fun a b c => lexLeB_trans a b c⟩

instance : IsTotal Row rowLe := by
  constructor
  intro a b
  rcases lt_trichotomy a.2.1 b.2.1 with h | h | h
  · exact Or.inr (Or.inl h)
  · rcases lexLeB_total a.1 b.1 with hle | hle
    · exact Or.inl (Or.inr ⟨h, hle⟩)
    · exact Or.inr (Or.inr ⟨h.symm, hle⟩)
  · exact Or.inl (Or.inl h)

instance : IsTrans Row rowLe := by
  constructor
  rintro a b c (h1 | ⟨h1e, h1le⟩) (h2 | ⟨h2e, h2le⟩)
  · exact Or.inl (lt_trans h2 h1)
  · exact Or.inl (h2e ▸ h1)
  · exact Or.inl (h1e ▸ h2)
  · exact Or.inr ⟨h1e.trans h2e, lexLeB_trans _ _ _ h1le h2le⟩

theorem fullRows_sorted (gd : List (Str × List Str)) :
    List.Sorted rowLe (fullRows gd) :=
  List.sorted_insertionSort rowLe (geneRows gd)

theorem fullRows_perm (gd : List (Str × List Str)) :
    (fullRows gd).Perm (geneRows gd) :=
  List.perm_insertionSort rowLe (geneRows gd)

/-- The strict order of the report: strictly descending count, or equal
count and strictly ascending gene symbol. -/
def rowStrict (a b : Row) : Prop :=
  b.2.1 < a.2.1 ∨ (a.2.1 = b.2.1 ∧ strLt a.1 b.1)

/-- A `rowLe`-sorted list with pairwise-distinct genes is strictly sorted. -/
theorem sorted_strict {l : List Row} (hs : List.Sorted rowLe l)
    (hnd : (l.map Prod.fst).Nodup) : List.Pairwise rowStrict l := by
  have hne : List.Pairwise (fun a b : Row => a.1 ≠ b.1) l :=
    List.pairwise_map.mp hnd
  refine (hs.and hne).imp ?step
  rintro a b ⟨hle | ⟨he, hle⟩, hab⟩
  · exact Or.inl hle
  · exact Or.inr ⟨he, hle, hab⟩

/-- Two `rowLe`-related rows in both directions share their gene symbol. -/
theorem rowLe_both_fst {a b : Row} (h1 : rowLe a b) (h2 : rowLe b a) :
    a.1 = b.1 := by
  rcases h1 with h1 | ⟨h1e, h1le⟩
  · rcases h2 with h2 | ⟨h2e, _⟩
    · exact absurd h2 (lt_asymm h1)
    · exact absurd h1 (h2e ▸ lt_irrefl _)
  · rcases h2 with h2 | ⟨_, h2le⟩
    · exact absurd h2 (h1e ▸ lt_irrefl _)
    · exact lexLeB_antisymm _ _ h1le h2le

/-- A sorted permutation of a gene-duplicate-free row list is unique:
the sort key `(-count, gene)` is injective on such a list. -/
theorem sorted_rows_unique :
    ∀ {l1 l2 : List Row}, l1.Perm l2 → List.Sorted rowLe l1 →
      List.Sorted rowLe l2 → (l1.map Prod.fst).Nodup → l1 = l2 := by
  intro l1
  induction l1 with
  | nil =>
    intro l2 hp _ _ _
    exact (hp.nil_eq).symm ▸ rfl
  | cons a t1 ih =>
    intro l2 hp hs1 hs2 hnd
    cases l2 with
    | nil => exact absurd hp.symm.nil_eq (by simp)
    | cons b t2 =>
      have hab : a = b := by
        rcases List.mem_cons.mp (hp.mem_iff.mp (List.mem_cons_self a t1)) with heq | hat2
        · exact heq
        · rcases List.mem_cons.mp (hp.symm.mem_iff.mp (List.mem_cons_self b t2)) with heq | hbt1
          · exact heq.symm
          · have h1 : rowLe a b := List.rel_of_sorted_cons hs1 b hbt1
            have h2 : rowLe b a := List.rel_of_sorted_cons hs2 a hat2
            exact List.inj_on_of_nodup_map hnd (List.mem_cons_self a t1)
              (List.mem_cons_of_mem a hbt1) (rowLe_both_fst h1 h2)
      subst hab
      have ht : t1.Perm t2 := hp.cons_inv
      rw [ih ht hs1.of_cons hs2.of_cons (by
        have := hnd
        rw [List.map_cons] at this
        exact this.of_cons)]

/-! ## Bridging lemmas for the reporter -/

theorem geneRows_map_fst (gd : List (Str × List Str)) :
    (geneRows gd).map Prod.fst = keysOf gd := by
  simp [geneRows, keysOf, List.map_map]

theorem fullRows_map_fst_perm (gd : List (Str × List Str)) :
    ((fullRows gd).map Prod.fst).Perm (keysOf gd) := by
  rw [← geneRows_map_fst gd]
  exact (fullRows_perm gd).map Prod.fst

theorem fullRows_map_fst_nodup {gd : List (Str × List Str)}
    (h : (keysOf gd).Nodup) : ((fullRows gd).map Prod.fst).Nodup :=
  (fullRows_map_fst_perm gd).nodup_iff.mpr h

theorem sortStrs_perm (l : List Str) : (sortStrs l).Perm l :=
  List.perm_insertionSort strLe l

/-- Count of semicolon-separated tokens in a string: one more than the
number of separator occurrences (splitting on a single character). -/
def numTokens (s : Str) : Nat := s.count ';' + 1

theorem count_joinSep_semi (x : Str) :
    ∀ t : List Str, (joinSep [';'] (x :: t)).count ';'
      = x.count ';' + ((t.map (fun s => s.count ';')).sum + t.length) := by
  intro t
  induction t generalizing x with
  | nil => simp [joinSep]
  | cons y t2 ih =>
    show (x ++ [';'] ++ joinSep [';'] (y :: t2)).count ';' = _
    rw [List.count_append, List.count_append, ih y]
    simp
    omega

/-- Joining semicolon-free strings and re-splitting on `;` recovers
exactly the original number of tokens. -/
theorem numTokens_joinSep {l : List Str} (hne : l ≠ [])
    (h : ∀ s ∈ l, ';' ∉ s) : numTokens (joinSep [';'] l) = l.length := by
  cases l with
  | nil => exact absurd rfl hne
  | cons x t =>
    unfold numTokens
    rw [count_joinSep_semi x t]
    have hx : x.count ';' = 0 :=
      List.count_eq_zero.mpr (h x (List.mem_cons_self _ _))
    have ht : (t.map (fun s => s.count ';')).sum = 0 := by
      rw [List.sum_eq_zero]
      intro n hn
      rcases List.mem_map.mp hn with ⟨s, hs, rfl⟩
      exact List.count_eq_zero.mpr (h s (List.mem_cons_of_mem _ hs))
    rw [hx, ht]
    simp

theorem flatten_dropEmptySets (d : List (Str × List Str)) :
    ((dropEmptySets d).map Prod.snd).flatten = (d.map Prod.snd).flatten := by
  induction d with
  | nil => rfl
  | cons kv rest ih =>
    by_cases hv : kv.2.isEmpty
    · rw [show dropEmptySets (kv :: rest) = dropEmptySets rest by
        simp [dropEmptySets, List.filter_cons, hv]]
      rw [ih]
      have : kv.2 = [] := List.isEmpty_iff.mp hv
      simp [this]
    · rw [show dropEmptySets (kv :: rest) = kv :: dropEmptySets rest by
        simp [dropEmptySets, List.filter_cons, hv]]
      simp only [List.map_cons, List.flatten_cons, ih]

theorem lookupVal_dropEmptySets {d : List (Str × List Str)} {k : Str}
    (hnd : (keysOf d).Nodup) (hne : lookupVal d k ≠ []) :
    lookupVal (dropEmptySets d) k = lookupVal d k := by
  induction d with
  | nil => rfl
  | cons kv rest ih =>
    obtain ⟨k2, v⟩ := kv
    have hnd2 : k2 ∉ keysOf rest ∧ (keysOf rest).Nodup := by
      simpa [keysOf] using hnd
    by_cases hk : k2 = k
    · subst hk
      rw [lookupVal_cons_self] at hne ⊢
      have hvne : ¬ v.isEmpty := by
        simpa [List.isEmpty_iff] using hne
      rw [show dropEmptySets ((k2, v) :: rest) = (k2, v) :: dropEmptySets rest by
        simp [dropEmptySets, List.filter_cons, hvne]]
      rw [lookupVal_cons_self]
    · rw [lookupVal_cons_ne hk] at hne ⊢
      by_cases hv : v.isEmpty
      · rw [show dropEmptySets ((k2, v) :: rest) = dropEmptySets rest by
          simp [dropEmptySets, List.filter_cons, hv]]
        exact ih hnd2.2 hne
      · rw [show dropEmptySets ((k2, v) :: rest) = (k2, v) :: dropEmptySets rest by
          simp [dropEmptySets, List.filter_cons, hv]]
        rw [lookupVal_cons_ne hk]
        exact ih hnd2.2 hne

theorem findIdx?_none_of_not_mem {cols : List Str} {x : Str} (h : x ∉ cols) :
    cols.findIdx? (fun c => decide (c = x)) = none := by
  rw [List.findIdx?_eq_none_iff]
  intro c hc
  simp only [decide_eq_false_iff_not]
  rintro rfl
  exact h hc

theorem findIdx?_isSome_of_mem {cols : List Str} {x : Str} (h : x ∈ cols) :
    ∃ i, cols.findIdx? (fun c => decide (c = x)) = some i := by
  cases heq : cols.findIdx? (fun c => decide (c = x)) with
  | none =>
    have := List.findIdx?_eq_none_iff.mp heq x h
    simp at this
  | some i => exact ⟨i, rfl⟩

theorem pyStrip_cons_ne_nil {c : Char} (hc : isPySpace c = false) (rest : Str) :
    pyStrip (c :: rest) ≠ [] := by
  unfold pyStrip
  rw [List.dropWhile_cons_of_neg (by simp [hc])]
  intro hcontra
  have h2 : (c :: rest).reverse.dropWhile isPySpace = [] := by
    have := congrArg List.reverse hcontra
    simpa using this
  have h3 := List.dropWhile_eq_nil_iff.mp h2 c (by simp)
  simp [hc] at h3

theorem runLinesUpset_append (st : ParseState) (l1 l2 : List Str) :
    runLinesUpset st (l1 ++ l2) =
      match runLinesUpset st l1 with
      | .error e => .error e
      | .ok st2 => runLinesUpset st2 l2 := by
  induction l1 generalizing st with
  | nil => rfl
  | cons l rest ih =>
    have hL : runLinesUpset st (l :: (rest ++ l2)) =
        match processLineUpset st l with
        | .error e => .error e
        | .ok st2 => runLinesUpset st2 (rest ++ l2) := rfl
    have hR : runLinesUpset st (l :: rest) =
        match processLineUpset st l with
        | .error e => .error e
        | .ok st2 => runLinesUpset st2 rest := rfl
    show runLinesUpset st (l :: (rest ++ l2)) =
      match runLinesUpset st (l :: rest) with
      | .error e => .error e
      | .ok st2 => runLinesUpset st2 l2
    rw [hL, hR]
    cases processLineUpset st l with
    | error e => rfl
    | ok st2 => exact ih st2

/-! ## Determinism: the report depends only on the contents of the index -/

/-- The relation between two runs' views of the same parse result: same
blocks in the same order, each block's gene set enumerated in a possibly
different order (Python set iteration order is run-dependent). -/
def SameBlocks (d1 d2 : List (Str × List Str)) : Prop :=
  List.Forall₂ (fun a b => a.1 = b.1 ∧ a.2.Perm b.2) d1 d2

theorem SameBlocks.keys_eq {d1 d2 : List (Str × List Str)} (h : SameBlocks d1 d2) :
    keysOf d1 = keysOf d2 := by
  induction h with
  | nil => rfl
  | cons hab htl ih =>
    show _ :: keysOf _ = _ :: keysOf _
    rw [hab.1, ih]

theorem SameBlocks.filter_map_eq {d1 d2 : List (Str × List Str)}
    (h : SameBlocks d1 d2) (g : Str) :
    (d1.filter (fun kv => decide (g ∈ kv.2))).map Prod.fst
      = (d2.filter (fun kv => decide (g ∈ kv.2))).map Prod.fst := by
  induction h with
  | nil => rfl
  | @cons a b t1 t2 hab htl ih =>
    by_cases hg : g ∈ a.2
    · rw [List.filter_cons_of_pos (by simpa using hg),
        List.filter_cons_of_pos (by simpa using hab.2.mem_iff.mp hg)]
      simp only [List.map_cons, ih, hab.1]
    · rw [List.filter_cons_of_neg (by simpa using hg),
        List.filter_cons_of_neg (by simpa using fun h2 => hg (hab.2.mem_iff.mpr h2))]
      exact ih

theorem SameBlocks.exists_mem_iff {d1 d2 : List (Str × List Str)}
    (h : SameBlocks d1 d2) (g : Str) :
    (∃ kv ∈ d1, g ∈ kv.2) ↔ (∃ kv ∈ d2, g ∈ kv.2) := by
  induction h with
  | nil => simp
  | @cons a b t1 t2 hab htl ih =>
    simp only [List.mem_cons]
    constructor
    · rintro ⟨kv, (rfl | hm), hg⟩
      · exact ⟨b, Or.inl rfl, hab.2.mem_iff.mp hg⟩
      · obtain ⟨kv2, hm2, hg2⟩ := ih.mp ⟨kv, hm, hg⟩
        exact ⟨kv2, Or.inr hm2, hg2⟩
    · rintro ⟨kv, (rfl | hm), hg⟩
      · exact ⟨a, Or.inl rfl, hab.2.mem_iff.mpr hg⟩
      · obtain ⟨kv2, hm2, hg2⟩ := ih.mpr ⟨kv, hm, hg⟩
        exact ⟨kv2, Or.inr hm2, hg2⟩

/-- Membership in the inverted index, characterised by contents alone. -/
theorem mem_invert_iff {d : List (Str × List Str)} (hnd : (keysOf d).Nodup)
    {g : Str} {v : List Str} :
    (g, v) ∈ invert_to_gene_counts d ↔
      (∃ kv ∈ d, g ∈ kv.2) ∧
        v = (d.filter (fun kv => decide (g ∈ kv.2))).map Prod.fst := by
  constructor
  · intro h
    have hk : g ∈ keysOf (invert_to_gene_counts d) := by
      simpa [keysOf] using List.mem_map_of_mem Prod.fst h
    refine ⟨mem_keysOf_invert.mp hk, ?_⟩
    have hv := lookupVal_eq_of_mem (keysOf_invert_nodup d) h
    rw [← hv, lookupVal_invert hnd]
  · rintro ⟨hex, rfl⟩
    have hk : g ∈ keysOf (invert_to_gene_counts d) := mem_keysOf_invert.mpr hex
    have := mem_of_lookupVal hk
    rwa [lookupVal_invert hnd] at this

theorem invert_perm_of_sameBlocks {d1 d2 : List (Str × List Str)}
    (h1 : (keysOf d1).Nodup) (hF : SameBlocks d1 d2) :
    (invert_to_gene_counts d1).Perm (invert_to_gene_counts d2) := by
  have h2 : (keysOf d2).Nodup := hF.keys_eq ▸ h1
  refine (List.perm_ext_iff_of_nodup
    (List.Nodup.of_map Prod.fst (keysOf_invert_nodup d1))
    (List.Nodup.of_map Prod.fst (keysOf_invert_nodup d2))).mpr ?_
  rintro ⟨g, v⟩
  rw [mem_invert_iff h1, mem_invert_iff h2, hF.exists_mem_iff g, hF.filter_map_eq g]

/-- The sorted report rows are identical for any two content-equal views
of the parse result. -/
theorem fullRows_eq_of_sameBlocks {d1 d2 : List (Str × List Str)}
    (h1 : (keysOf d1).Nodup) (hF : SameBlocks d1 d2) :
    fullRows (invert_to_gene_counts d1) = fullRows (invert_to_gene_counts d2) := by
  have hperm : (invert_to_gene_counts d1).Perm (invert_to_gene_counts d2) :=
    invert_perm_of_sameBlocks h1 hF
  have hg : (geneRows (invert_to_gene_counts d1)).Perm
      (geneRows (invert_to_gene_counts d2)) := by
    unfold geneRows
    exact hperm.map _
  have hrows : (fullRows (invert_to_gene_counts d1)).Perm
      (fullRows (invert_to_gene_counts d2)) :=
    ((fullRows_perm _).trans hg).trans (fullRows_perm _).symm
  exact sorted_rows_unique hrows (fullRows_sorted _) (fullRows_sorted _)
    (fullRows_map_fst_nodup (keysOf_invert_nodup d1))

/-! ## Remaining helper lemmas -/

theorem rowLe_count_le {a b : Row} (h : rowLe a b) : b.2.1 ≤ a.2.1 := by
  rcases h with h | ⟨he, _⟩
  · exact le_of_lt h
  · exact le_of_eq he.symm

theorem filter_eq_takeWhile_of_desc :
    ∀ (t : List Row) (m : Nat), (∀ x ∈ t, x.2.1 ≤ m) →
      List.Pairwise (fun a b : Row => b.2.1 ≤ a.2.1) t →
      t.filter (fun r => decide (r.2.1 = m)) = t.takeWhile (fun r => decide (r.2.1 = m)) := by
  intro t
  induction t with
  | nil => intro m _ _; rfl
  | cons y t2 ih =>
    intro m hbnd hpw
    have hy : y.2.1 ≤ m := hbnd y (List.mem_cons_self _ _)
    obtain ⟨hhead, htail⟩ := List.pairwise_cons.mp hpw
    by_cases hm : y.2.1 = m
    · rw [List.filter_cons_of_pos (by simp [hm]),
        List.takeWhile_cons_of_pos (by simp [hm])]
      rw [ih m (fun x hx => le_trans (hhead x hx) hy) htail]
    · rw [List.filter_cons_of_neg (by simp [hm]),
        List.takeWhile_cons_of_neg (by simp [hm])]
      apply List.filter_eq_nil_iff.mpr
      intro a ha
      simp only [decide_eq_true_eq]
      have hle : a.2.1 ≤ y.2.1 := hhead a ha
      have hlt : y.2.1 < m := lt_of_le_of_ne hy hm
      omega

/-- Every count in the sorted row list is bounded by the first one. -/
theorem fullRows_count_le_max (gd : List (Str × List Str)) :
    ∀ x ∈ fullRows gd, x.2.1 ≤ maxCountOf (fullRows gd) := by
  cases hrows : fullRows gd with
  | nil => intro x hx; simp at hx
  | cons r t =>
    intro x hx
    rcases List.mem_cons.mp hx with rfl | hxt
    · exact le_refl _
    · have hs := fullRows_sorted gd
      rw [hrows] at hs
      exact rowLe_count_le (List.rel_of_sorted_cons hs x hxt)

/-! ## Claim theorems: the parser -/

/-- The example input of the specification: two blocks, `GSE1` with flagged
genes `{A, B}` and `GSE2` with flagged genes `{B, C}` (plus one non-flagged
row). -/
def exLines : List Str :=
  [str "GSE1",
   str "NAME\tSYMBOL\tCORE ENRICHMENT",
   str "row_0\tA\tYes",
   str "row_1\tB\tYes",
   str "row_2\tD\tNo",
   str "GSE2",
   str "NAME\tSYMBOL\tCORE ENRICHMENT",
   str "row_0\tB\tYes",
   str "row_1\tC\tYes"]

/-- The parse result of `exLines`. -/
def exParsed : List (Str × List Str) :=
  [(str "GSE1", [str "A", str "B"]), (str "GSE2", [str "B", str "C"])]

/-- C8: a data row inside a recognized block (current dataset and header
both set) whose field list, after trimming trailing empty fields, is too
short to reach both required column positions is skipped silently: the
step succeeds (never an error) and leaves the state entirely unchanged. -/
theorem c8_short_row_skipped {st : ParseState} {line : Str} {ds : Str} {si ci : Nat}
    (hcur : st.currentDataset = some ds) (hhdr : st.headerIdx = some (si, ci))
    (hnb : pyStrip line ≠ [])
    (hnds : ¬ (¬ ('\t' ∈ line) ∧ (str "GSE").isPrefixOf (pyStrip line) = true))
    (hshort : (dropTrailingEmpty (splitTab line)).length < max si ci + 1) :
    processLine st line = .ok st := by
  unfold processLine
  rw [if_neg (by simpa [List.isEmpty_iff] using hnb), if_neg hnds,
    if_neg (by
      rintro ⟨hnone, _⟩
      rw [hhdr] at hnone
      exact Option.noConfusion hnone),
    hcur, hhdr]
  dsimp only
  rw [if_pos hshort]

/-- C8 witness: a concrete short row (2 fields, flag column at index 2)
inside a block is skipped and the state is unchanged. -/
theorem c8_short_row_skipped_witness :
    (dropTrailingEmpty (splitTab (str "row_0\tA"))).length < max 1 2 + 1 ∧
    processLine ⟨[(str "GSE1", [])], some (str "GSE1"), some (1, 2)⟩ (str "row_0\tA")
      = .ok ⟨[(str "GSE1", [])], some (str "GSE1"), some (1, 2)⟩ :=
  ⟨by decide,
   c8_short_row_skipped rfl rfl (by decide) (by decide) (by decide)⟩

/-- C4: for a data row inside a recognized block with a recognized header
that reaches both required columns, the current block's gene set is
extended with the trimmed symbol exactly when the flag field, trimmed and
lowercased, equals `yes` and the trimmed symbol is nonempty — and blocks
with empty gene sets are absent from the parser's result. -/
theorem c4_flag_gate {st : ParseState} {line : Str} {ds : Str} {si ci : Nat}
    {st2 : ParseState}
    (hcur : st.currentDataset = some ds) (hhdr : st.headerIdx = some (si, ci))
    (hnb : pyStrip line ≠ [])
    (hnds : ¬ (¬ ('\t' ∈ line) ∧ (str "GSE").isPrefixOf (pyStrip line) = true))
    (hlen : ¬ (dropTrailingEmpty (splitTab line)).length < max si ci + 1)
    (hstep : processLine st line = .ok st2) :
    (lookupVal st2.datasetsToGenes ds =
      if pyLower (pyStrip ((dropTrailingEmpty (splitTab line)).getD ci [])) = str "yes"
          ∧ pyStrip ((dropTrailingEmpty (splitTab line)).getD si []) ≠ []
        then addToSet (lookupVal st.datasetsToGenes ds)
          (pyStrip ((dropTrailingEmpty (splitTab line)).getD si []))
        else lookupVal st.datasetsToGenes ds) ∧
    (∀ (lines2 : List Str) (d : List (Str × List Str)),
      parse_doxset_rinn_tsv lines2 = .ok d → ∀ kv ∈ d, kv.2 ≠ []) := by
  refine ⟨?row, fun lines2 d hp => parse_ok_values_ne_nil hp⟩
  unfold processLine at hstep
  rw [if_neg (by simpa [List.isEmpty_iff] using hnb), if_neg hnds,
    if_neg (by
      rintro ⟨hnone, _⟩
      rw [hhdr] at hnone
      exact Option.noConfusion hnone),
    hcur, hhdr] at hstep
  dsimp only at hstep
  rw [if_neg hlen] at hstep
  by_cases hflag :
      pyLower (pyStrip ((dropTrailingEmpty (splitTab line)).getD ci [])) = str "yes"
  · rw [if_pos hflag] at hstep
    by_cases hsym : pyStrip ((dropTrailingEmpty (splitTab line)).getD si []) = []
    · rw [if_neg (by simpa [List.isEmpty_iff] using hsym)] at hstep
      cases hstep
      rw [if_neg (by rintro ⟨_, hcontra⟩; exact hcontra hsym)]
    · rw [if_pos (by simpa [List.isEmpty_iff] using hsym)] at hstep
      cases hstep
      rw [if_pos ⟨hflag, hsym⟩]
      exact lookupVal_dictAdd_self _ _ _
  · rw [if_neg hflag] at hstep
    cases hstep
    rw [if_neg (by rintro ⟨hcontra, _⟩; exact hflag hcontra)]

/-- C4 witness: a concrete flagged row `row_0 A Yes` adds `A` to the
current block's set. -/
theorem c4_flag_gate_witness :
    processLine ⟨[(str "GSE1", [])], some (str "GSE1"), some (1, 2)⟩ (str "row_0\tA\tYes")
      = .ok ⟨[(str "GSE1", [str "A"])], some (str "GSE1"), some (1, 2)⟩ ∧
    lookupVal [(str "GSE1", [str "A"])] (str "GSE1")
      = addToSet (lookupVal [(str "GSE1", [])] (str "GSE1")) (str "A") := by
  constructor
  · rfl
  · have hstep : processLine ⟨[(str "GSE1", [])], some (str "GSE1"), some (1, 2)⟩
        (str "row_0\tA\tYes")
        = .ok ⟨[(str "GSE1", [str "A"])], some (str "GSE1"), some (1, 2)⟩ := rfl
    have h := (c4_flag_gate rfl rfl (by decide) (by decide) (by decide) hstep).1
    rw [if_pos (by decide)] at h
    exact h

/-- The uncaught error message produced by the intersections parser for a
header missing a required column: `list.index` fails on the first column
searched that is absent (`SYMBOL` is looked up first). -/
def headerErrMsg (cols : List Str) : Str :=
  if str "SYMBOL" ∈ cols then indexErr "CORE ENRICHMENT" else indexErr "SYMBOL"

theorem processLine_header_missing {st : ParseState} {line : Str}
    (h2 : st.headerIdx = none) (h3 : (str "NAME\t").isPrefixOf line = true)
    (h4 : str "SYMBOL" ∉ headerCols line ∨ str "CORE ENRICHMENT" ∉ headerCols line) :
    processLine st line = .error (headerErrMsg (headerCols line)) ∧
    processLineUpset st line = .error (upsetHeaderErr (headerCols line)) := by
  obtain ⟨t, ht⟩ := List.isPrefixOf_iff_prefix.mp h3
  have hshape : line = 'N' :: (['A', 'M', 'E', '\t'] ++ t) := by
    rw [← ht]
    rfl
  have hnb : ¬ (pyStrip line).isEmpty = true := by
    rw [hshape]
    simpa [List.isEmpty_iff] using pyStrip_cons_ne_nil (by decide) (['A', 'M', 'E', '\t'] ++ t)
  have htab : '\t' ∈ line := by
    rw [← ht]
    exact List.mem_append.mpr (Or.inl (by decide))
  constructor
  · unfold processLine
    rw [if_neg hnb, if_neg (by rintro ⟨hnot, _⟩; exact hnot htab), if_pos ⟨h2, h3⟩]
    dsimp only
    by_cases hsym : str "SYMBOL" ∈ headerCols line
    · have hcore : str "CORE ENRICHMENT" ∉ headerCols line :=
        h4.resolve_left (fun hc => hc hsym)
      obtain ⟨si, hsi⟩ := findIdx?_isSome_of_mem hsym
      rw [hsi]
      dsimp only
      rw [findIdx?_none_of_not_mem hcore]
      unfold headerErrMsg
      rw [if_pos hsym]
    · rw [findIdx?_none_of_not_mem hsym]
      unfold headerErrMsg
      rw [if_neg hsym]
  · unfold processLineUpset
    rw [if_neg hnb, if_neg (by rintro ⟨hnot, _⟩; exact hnot htab), if_pos ⟨h2, h3⟩]
    dsimp only
    by_cases hsym : str "SYMBOL" ∈ headerCols line
    · have hcore : str "CORE ENRICHMENT" ∉ headerCols line :=
        h4.resolve_left (fun hc => hc hsym)
      obtain ⟨si, hsi⟩ := findIdx?_isSome_of_mem hsym
      rw [hsi]
      dsimp only
      rw [findIdx?_none_of_not_mem hcore]
    · rw [findIdx?_none_of_not_mem hsym]

/-- C5 (amended): when a header-marker line is *recognized* as a block
header (no header is active at that point) and lacks a required column,
both scripts' parses abort with an uncaught error, propagated out of the
whole run, whose message names the missing column (`'X' is not in list`
for the first absent column in the intersections script; the upset script
lists the expected columns together with the offending header). -/
theorem c5_missing_column_fatal {pre post : List Str} {line : Str} {st : ParseState}
    (h1 : runLines initState pre = .ok st)
    (h1u : runLinesUpset initState pre = .ok st)
    (h2 : st.headerIdx = none)
    (h3 : (str "NAME\t").isPrefixOf line = true)
    (h4 : str "SYMBOL" ∉ headerCols line ∨ str "CORE ENRICHMENT" ∉ headerCols line) :
    parse_doxset_rinn_tsv (pre ++ line :: post) = .error (headerErrMsg (headerCols line)) ∧
    mainRun (pre ++ line :: post) = .error (headerErrMsg (headerCols line)) ∧
    parse_doxset_rinn_tsv_upset (pre ++ line :: post)
      = .error (upsetHeaderErr (headerCols line)) ∧
    (str "SYMBOL" ∉ headerCols line →
      headerErrMsg (headerCols line) = indexErr "SYMBOL") := by
  obtain ⟨herr, herru⟩ := processLine_header_missing h2 h3 h4
  have hrun : runLines initState (pre ++ line :: post)
      = .error (headerErrMsg (headerCols line)) := by
    rw [runLines_append, h1]
    show runLines st (line :: post) = _
    unfold runLines
    rw [herr]
  have hrunu : runLinesUpset initState (pre ++ line :: post)
      = .error (upsetHeaderErr (headerCols line)) := by
    rw [runLinesUpset_append, h1u]
    show runLinesUpset st (line :: post) = _
    unfold runLinesUpset
    rw [herru]
  have hparse : parse_doxset_rinn_tsv (pre ++ line :: post)
      = .error (headerErrMsg (headerCols line)) := by
    unfold parse_doxset_rinn_tsv
    rw [hrun]
  refine ⟨hparse, ?_, ?_, ?_⟩
  · unfold mainRun
    rw [hparse]
  · unfold parse_doxset_rinn_tsv_upset
    rw [hrunu]
  · intro hsym
    unfold headerErrMsg
    rw [if_neg hsym]

/-- C5 witness: a header `NAME FOO` recognized at the start of a block
aborts both scripts with the respective messages. -/
theorem c5_missing_column_fatal_witness :
    parse_doxset_rinn_tsv [str "GSE1", str "NAME\tFOO"] = .error (indexErr "SYMBOL") ∧
    mainRun [str "GSE1", str "NAME\tFOO"] = .error (indexErr "SYMBOL") ∧
    parse_doxset_rinn_tsv_upset [str "GSE1", str "NAME\tFOO"]
      = .error (upsetHeaderErr [str "NAME", str "FOO"]) := by
  have h1 : runLines initState [str "GSE1"]
      = .ok ⟨[(str "GSE1", [])], some (str "GSE1"), none⟩ := rfl
  have h1u : runLinesUpset initState [str "GSE1"]
      = .ok ⟨[(str "GSE1", [])], some (str "GSE1"), none⟩ := rfl
  have h := @c5_missing_column_fatal [str "GSE1"] [] (str "NAME\tFOO")
    ⟨[(str "GSE1", [])], some (str "GSE1"), none⟩ h1 h1u rfl (by decide)
    (Or.inl (by decide))
  exact ⟨h.1, h.2.1, h.2.2.1⟩

/-- The C5 counterexample input: a valid block followed by a second
header-marker line lacking both required columns. -/
def cexHeaderLines : List Str :=
  [str "GSE1",
   str "NAME\tSYMBOL\tCORE ENRICHMENT",
   str "row_0\tA\tYes",
   str "NAME\tFOO"]

/-- C5 counterexample: `cexHeaderLines` contains a line starting with the
header marker that lacks both required column names, yet no run aborts:
the intersections script parses successfully and exits 0, and the upset
script's parse also succeeds.  (The line is treated as a data row, because
a header is already active for the block.) -/
theorem c5_counterexample :
    (str "NAME\t").isPrefixOf (str "NAME\tFOO") = true ∧
    str "SYMBOL" ∉ headerCols (str "NAME\tFOO") ∧
    str "CORE ENRICHMENT" ∉ headerCols (str "NAME\tFOO") ∧
    parse_doxset_rinn_tsv cexHeaderLines = .ok [(str "GSE1", [str "A"])] ∧
    mainRun cexHeaderLines = .ok (0, some
      (fullCsv (invert_to_gene_counts [(str "GSE1", [str "A"])]),
       maxCsv (invert_to_gene_counts [(str "GSE1", [str "A"])]))) ∧
    parse_doxset_rinn_tsv_upset cexHeaderLines = .ok [(str "GSE1", [str "A"])] :=
  ⟨by decide, by decide, by decide, rfl, rfl, rfl⟩

/-! ## Claim theorems: exit codes and invariants -/

/-- C6: the entry point exits 0 — writing both files — exactly when some
block gained at least one qualifying (flagged, nonempty-symbol) gene, and
exits 1 — writing nothing — when no qualifying row was found, i.e. the
filtered parse result is empty. -/
theorem c6_exit_codes {lines : List Str} {st : ParseState}
    (h : runLines initState lines = .ok st) :
    ((∃ kv ∈ st.datasetsToGenes, kv.2 ≠ []) →
      mainRun lines = .ok (0, some
        (fullCsv (invert_to_gene_counts (dropEmptySets st.datasetsToGenes)),
         maxCsv (invert_to_gene_counts (dropEmptySets st.datasetsToGenes))))) ∧
    ((∀ kv ∈ st.datasetsToGenes, kv.2 = []) → mainRun lines = .ok (1, none)) := by
  unfold mainRun parse_doxset_rinn_tsv
  rw [h]
  dsimp only
  constructor
  · rintro ⟨kv, hkv, hne⟩
    rw [if_neg ?nonempty]
    case nonempty =>
      simp only [List.isEmpty_iff]
      exact List.ne_nil_of_mem (List.mem_filter.mpr
        ⟨hkv, by simpa [List.isEmpty_iff] using hne⟩)
  · intro hall
    rw [if_pos ?empty]
    case empty =>
      have : dropEmptySets st.datasetsToGenes = [] := by
        apply List.filter_eq_nil_iff.mpr
        intro kv hkv
        rw [hall kv hkv]
        simp
      rw [this]
      rfl

/-- C6 witness: on the two-block example, the run exits 0 and produces the
two CSV files. -/
theorem c6_exit_codes_witness :
    mainRun exLines = .ok (0, some
      (fullCsv (invert_to_gene_counts (dropEmptySets exParsed)),
       maxCsv (invert_to_gene_counts (dropEmptySets exParsed)))) := by
  have h : runLines initState exLines
      = .ok ⟨exParsed, some (str "GSE2"), some (1, 2)⟩ := rfl
  exact (c6_exit_codes h).1 ⟨(str "GSE1", [str "A", str "B"]), by decide, by decide⟩

/-- C9: in every parse result each block's gene set is duplicate-free, and
in the inverted index every gene's dataset set is duplicate-free, contains
only parsed block identifiers, and so is no larger than the number of
parsed blocks. -/
theorem c9_invariants {lines : List Str} {d : List (Str × List Str)}
    (hp : parse_doxset_rinn_tsv lines = .ok d) :
    (∀ kv ∈ d, kv.2.Nodup) ∧
    (∀ kv ∈ invert_to_gene_counts d,
      kv.2.Nodup ∧ kv.2 ⊆ keysOf d ∧ kv.2.length ≤ d.length) := by
  obtain ⟨hnd, hvnd⟩ := parse_ok_inv hp
  refine ⟨hvnd, ?_⟩
  intro kv hkv
  have hnodup : kv.2.Nodup := invert_values_nodup d kv hkv
  have hval := invert_values_eq hnd kv hkv
  have hsub : kv.2 ⊆ keysOf d := by
    intro x hx
    rw [hval] at hx
    obtain ⟨kv2, hkv2, rfl⟩ := List.mem_map.mp hx
    exact List.mem_map_of_mem Prod.fst (List.mem_of_mem_filter hkv2)
  refine ⟨hnodup, hsub, ?_⟩
  have hle := (List.subperm_of_subset hnodup hsub).length_le
  simpa [keysOf] using hle

/-- C9 witness: on the two-block example, gene `B`'s dataset set
`[GSE1, GSE2]` is duplicate-free, a subset of the parsed block ids, and no
larger than the number of blocks. -/
theorem c9_invariants_witness :
    ([str "GSE1", str "GSE2"] : List Str).Nodup ∧
    ([str "GSE1", str "GSE2"] : List Str) ⊆ keysOf exParsed ∧
    ([str "GSE1", str "GSE2"] : List Str).length ≤ exParsed.length := by
  have hp : parse_doxset_rinn_tsv exLines = .ok exParsed := rfl
  have h := (c9_invariants hp).2 (str "B", [str "GSE1", str "GSE2"]) (by decide)
  exact ⟨h.1, h.2.1, h.2.2⟩

/-- C10: genes recorded for a dataset id are never discarded or overwritten
by a later occurrence of the same dataset line: whatever is in the set of
`ds` after any prefix of the input is still in the set of `ds` in the final
parse result; moreover dataset ids occur at most once as keys, and no
gene's dataset list repeats an accession. -/
theorem c10_duplicate_blocks_merge {pre post : List Str} {st : ParseState}
    {d : List (Str × List Str)} {ds g : Str}
    (h1 : runLines initState pre = .ok st)
    (h2 : parse_doxset_rinn_tsv (pre ++ post) = .ok d)
    (hg : g ∈ lookupVal st.datasetsToGenes ds) :
    g ∈ lookupVal d ds ∧ (keysOf d).Nodup ∧
    ∀ kv ∈ invert_to_gene_counts d, kv.2.Nodup := by
  have hkeys : (keysOf d).Nodup := (parse_ok_inv h2).1
  unfold parse_doxset_rinn_tsv at h2
  rw [runLines_append, h1] at h2
  dsimp only at h2
  cases hrun : runLines st post with
  | error e =>
    rw [hrun] at h2
    exact Except.noConfusion h2
  | ok st2 =>
    rw [hrun] at h2
    cases h2
    have hmono := runLines_mono post hrun ds hg
    have hinv2 : DictInv st2 :=
      runLines_dictInv post (runLines_dictInv pre initState_dictInv h1) hrun
    have hne : lookupVal st2.datasetsToGenes ds ≠ [] := List.ne_nil_of_mem hmono
    refine ⟨?_, hkeys, invert_values_nodup _⟩
    rw [lookupVal_dropEmptySets hinv2.1 hne]
    exact hmono

/-- The C10 witness input: the dataset line `GSE1` occurs twice, around a
`GSE2` block. -/
def exDupLines : List Str :=
  [str "GSE1",
   str "NAME\tSYMBOL\tCORE ENRICHMENT",
   str "row_0\tA\tYes",
   str "GSE2",
   str "NAME\tSYMBOL\tCORE ENRICHMENT",
   str "row_0\tB\tYes",
   str "GSE1",
   str "NAME\tSYMBOL\tCORE ENRICHMENT",
   str "row_0\tC\tYes"]

/-- C10 witness: gene `A`, recorded under `GSE1` before the second `GSE1`
block, survives into the final result (merged with `C`), and the result
has pairwise-distinct dataset keys. -/
theorem c10_duplicate_blocks_merge_witness :
    str "A" ∈ lookupVal [(str "GSE1", [str "A", str "C"]), (str "GSE2", [str "B"])]
      (str "GSE1") ∧
    (keysOf [(str "GSE1", [str "A", str "C"]), (str "GSE2", [str "B"])]).Nodup := by
  have h1 : runLines initState
      [str "GSE1", str "NAME\tSYMBOL\tCORE ENRICHMENT", str "row_0\tA\tYes"]
      = .ok ⟨[(str "GSE1", [str "A"])], some (str "GSE1"), some (1, 2)⟩ := rfl
  have h2 : parse_doxset_rinn_tsv
      ([str "GSE1", str "NAME\tSYMBOL\tCORE ENRICHMENT", str "row_0\tA\tYes"]
        ++ [str "GSE2", str "NAME\tSYMBOL\tCORE ENRICHMENT", str "row_0\tB\tYes",
            str "GSE1", str "NAME\tSYMBOL\tCORE ENRICHMENT", str "row_0\tC\tYes"])
      = .ok [(str "GSE1", [str "A", str "C"]), (str "GSE2", [str "B"])] := rfl
  have hg : str "A" ∈ lookupVal
      (⟨[(str "GSE1", [str "A"])], some (str "GSE1"), some (1, 2)⟩
        : ParseState).datasetsToGenes (str "GSE1") := by decide
  have h := c10_duplicate_blocks_merge h1 h2 hg
  exact ⟨h.1, h.2.1⟩

/-! ## Claim theorems: the reporter -/

/-- C1 (amended): in every report row, `datasets_count` is the number of
distinct parsed blocks whose gene set contains the row's symbol; and —
provided no parsed dataset identifier contains a semicolon — it also
equals the number of semicolon-separated tokens of the `datasets` field. -/
theorem c1_datasets_count {lines : List Str} {d : List (Str × List Str)}
    (hp : parse_doxset_rinn_tsv lines = .ok d) :
    ∀ r ∈ fullRows (invert_to_gene_counts d),
      r.2.1 = (d.filter (fun kv => decide (r.1 ∈ kv.2))).length ∧
      ((∀ ds ∈ keysOf d, ';' ∉ ds) → numTokens (joinSep [';'] r.2.2) = r.2.1) := by
  obtain ⟨hnd, _⟩ := parse_ok_inv hp
  intro r hr
  have hr2 : r ∈ geneRows (invert_to_gene_counts d) := (fullRows_perm _).mem_iff.mp hr
  rw [show geneRows (invert_to_gene_counts d) = (invert_to_gene_counts d).map
      (fun kv => (kv.1, kv.2.length, sortStrs kv.2)) from rfl] at hr2
  obtain ⟨kv, hkv, rfl⟩ := List.mem_map.mp hr2
  have hval := invert_values_eq hnd kv hkv
  constructor
  · show kv.2.length = (d.filter (fun kv2 => decide (kv.1 ∈ kv2.2))).length
    rw [hval, List.length_map]
  · intro hsemi
    have hkmem : kv.1 ∈ keysOf (invert_to_gene_counts d) := by
      simpa [keysOf] using List.mem_map_of_mem Prod.fst hkv
    obtain ⟨kv2, hkv2, hgk⟩ := mem_keysOf_invert.mp hkmem
    have hvne : kv.2 ≠ [] := by
      intro hnil
      have hkv2f : kv2 ∈ d.filter (fun kv3 => decide (kv.1 ∈ kv3.2)) :=
        List.mem_filter.mpr ⟨hkv2, by simpa using hgk⟩
      have hm : kv2.1 ∈ (d.filter (fun kv3 => decide (kv.1 ∈ kv3.2))).map Prod.fst :=
        List.mem_map_of_mem _ hkv2f
      rw [← hval, hnil] at hm
      simp at hm
    show numTokens (joinSep [';'] (sortStrs kv.2)) = kv.2.length
    have hpermS := sortStrs_perm kv.2
    have hne2 : sortStrs kv.2 ≠ [] := by
      intro h0
      have hnilp : ([] : List Str).Perm kv.2 := h0 ▸ hpermS
      exact hvne hnilp.nil_eq.symm
    rw [numTokens_joinSep hne2 ?nosemi, hpermS.length_eq]
    case nosemi =>
      intro s hs
      have hs2 : s ∈ kv.2 := hpermS.mem_iff.mp hs
      rw [hval] at hs2
      obtain ⟨kv3, hkv3, rfl⟩ := List.mem_map.mp hs2
      exact hsemi kv3.1 (List.mem_map_of_mem Prod.fst (List.mem_of_mem_filter hkv3))

/-- C1 witness: gene `B` of the example has count 2, which is the number
of blocks containing it and the token count of `GSE1;GSE2`. -/
theorem c1_datasets_count_witness :
    (2 : Nat) = (exParsed.filter (fun kv => decide ((str "B") ∈ kv.2))).length ∧
    numTokens (joinSep [';'] [str "GSE1", str "GSE2"]) = 2 := by
  have hp : parse_doxset_rinn_tsv exLines = .ok exParsed := rfl
  have h := c1_datasets_count hp (str "B", 2, [str "GSE1", str "GSE2"]) (by decide)
  exact ⟨h.1, h.2 (by decide)⟩

/-- The C1 counterexample input: a dataset identifier containing a
semicolon (accepted by the parser: no tab, starts with `GSE`). -/
def cexSemiLines : List Str :=
  [str "GSE;1",
   str "NAME\tSYMBOL\tCORE ENRICHMENT",
   str "row_0\tA\tYes"]

/-- C1 counterexample: for the parser-produced mapping with block id
`GSE;1`, the row for gene `A` has `datasets_count = 1` but its `datasets`
field `GSE;1` has two semicolon-separated tokens. -/
theorem c1_counterexample :
    parse_doxset_rinn_tsv cexSemiLines = .ok [(str "GSE;1", [str "A"])] ∧
    fullRows (invert_to_gene_counts [(str "GSE;1", [str "A"])])
      = [(str "A", 1, [str "GSE;1"])] ∧
    numTokens (joinSep [';'] [str "GSE;1"]) = 2 :=
  ⟨rfl, by decide, by decide⟩

/-- C2: the report rows are strictly sorted — descending count, ties
broken by strictly ascending gene symbol — and the max-only file's rows
are exactly the initial prefix of the full file's rows whose count equals
the maximum count. -/
theorem c2_sorted_and_max_prefix {lines : List Str} {d : List (Str × List Str)}
    (hp : parse_doxset_rinn_tsv lines = .ok d) :
    List.Pairwise rowStrict (fullRows (invert_to_gene_counts d)) ∧
    maxRows (invert_to_gene_counts d)
      = (fullRows (invert_to_gene_counts d)).takeWhile
          (fun r => decide (r.2.1 = maxCountOf (fullRows (invert_to_gene_counts d)))) := by
  constructor
  · exact sorted_strict (fullRows_sorted _) (fullRows_map_fst_nodup (keysOf_invert_nodup d))
  · unfold maxRows
    exact filter_eq_takeWhile_of_desc _ _ (fullRows_count_le_max _)
      (List.Pairwise.imp (fun h => rowLe_count_le h) (fullRows_sorted _))

/-- C2 witness: on the example (`B,2` then `A,1` then `C,1`), the rows are
strictly sorted and the max-only rows form the maximal-count prefix. -/
theorem c2_sorted_and_max_prefix_witness :
    List.Pairwise rowStrict (fullRows (invert_to_gene_counts exParsed)) ∧
    maxRows (invert_to_gene_counts exParsed)
      = (fullRows (invert_to_gene_counts exParsed)).takeWhile
          (fun r => decide (r.2.1 = maxCountOf (fullRows (invert_to_gene_counts exParsed)))) :=
  c2_sorted_and_max_prefix (show parse_doxset_rinn_tsv exLines = .ok exParsed from rfl)

/-- C3: the number of data rows of the full report equals the number of
distinct gene symbols ever flagged `yes` in any block of the input (the
distinct members of the union of all block gene sets, before the
empty-block filter). -/
theorem c3_row_count {lines : List Str} {st : ParseState}
    (h : runLines initState lines = .ok st) :
    (fullRows (invert_to_gene_counts (dropEmptySets st.datasetsToGenes))).length
      = ((st.datasetsToGenes.map Prod.snd).flatten).dedup.length := by
  have hlen1 : (fullRows (invert_to_gene_counts (dropEmptySets st.datasetsToGenes))).length
      = (invert_to_gene_counts (dropEmptySets st.datasetsToGenes)).length := by
    rw [(fullRows_perm _).length_eq]
    exact List.length_map _ _
  have hmem : ∀ x : Str,
      x ∈ keysOf (invert_to_gene_counts (dropEmptySets st.datasetsToGenes))
        ↔ x ∈ ((st.datasetsToGenes.map Prod.snd).flatten).dedup := by
    intro x
    rw [mem_keysOf_invert, List.mem_dedup, ← flatten_dropEmptySets, List.mem_flatten]
    constructor
    · rintro ⟨kv, hkv, hx⟩
      exact ⟨kv.2, List.mem_map_of_mem Prod.snd hkv, hx⟩
    · rintro ⟨l, hl, hx⟩
      obtain ⟨kv, hkv, rfl⟩ := List.mem_map.mp hl
      exact ⟨kv, hkv, hx⟩
  have hperm2 : (keysOf (invert_to_gene_counts (dropEmptySets st.datasetsToGenes))).Perm
      (((st.datasetsToGenes.map Prod.snd).flatten).dedup) :=
    (List.perm_ext_iff_of_nodup (keysOf_invert_nodup _) (List.nodup_dedup _)).mpr hmem
  rw [hlen1, show (invert_to_gene_counts (dropEmptySets st.datasetsToGenes)).length
      = (keysOf (invert_to_gene_counts (dropEmptySets st.datasetsToGenes))).length from
      (List.length_map _ _).symm,
    hperm2.length_eq]

/-- C3 witness: the example yields 3 rows and 3 distinct flagged symbols. -/
theorem c3_row_count_witness :
    (fullRows (invert_to_gene_counts (dropEmptySets
        (⟨exParsed, some (str "GSE2"), some (1, 2)⟩
          : ParseState).datasetsToGenes))).length
      = (((⟨exParsed, some (str "GSE2"), some (1, 2)⟩
          : ParseState).datasetsToGenes.map Prod.snd).flatten).dedup.length :=
  c3_row_count (show runLines initState exLines
    = .ok ⟨exParsed, some (str "GSE2"), some (1, 2)⟩ from rfl)

/-- C7: the transform is deterministic.  The only run-dependent behaviour
in the pipeline is Python's set iteration order, which enters when the
parse result's gene sets are enumerated; for any enumeration (any
`SameBlocks` reordering of the gene sets) the produced bytes of both CSV
files are identical. -/
theorem c7_deterministic {lines : List Str} {d1 d2 : List (Str × List Str)}
    (hp : parse_doxset_rinn_tsv lines = .ok d1) (hF : SameBlocks d1 d2) :
    fullCsv (invert_to_gene_counts d1) = fullCsv (invert_to_gene_counts d2) ∧
    maxCsv (invert_to_gene_counts d1) = maxCsv (invert_to_gene_counts d2) := by
  have hrows := fullRows_eq_of_sameBlocks (parse_ok_inv hp).1 hF
  constructor
  · unfold fullCsv
    rw [hrows]
  · unfold maxCsv maxRows
    rw [hrows]

/-- The example parse result with both gene sets enumerated in reverse. -/
def exShuffled : List (Str × List Str) :=
  [(str "GSE1", [str "B", str "A"]), (str "GSE2", [str "C", str "B"])]

/-- C7 witness: enumerating the example's gene sets in a different order
yields byte-identical CSV outputs. -/
theorem c7_deterministic_witness :
    fullCsv (invert_to_gene_counts exParsed) = fullCsv (invert_to_gene_counts exShuffled) ∧
    maxCsv (invert_to_gene_counts exParsed) = maxCsv (invert_to_gene_counts exShuffled) := by
  have hp : parse_doxset_rinn_tsv exLines = .ok exParsed := rfl
  have hF : SameBlocks exParsed exShuffled := by
    unfold SameBlocks exParsed exShuffled
    refine List.Forall₂.cons ⟨rfl, ?_⟩ (List.Forall₂.cons ⟨rfl, ?_⟩ List.Forall₂.nil)
    · exact List.Perm.swap _ _ _
    · exact List.Perm.swap _ _ _
  exact c7_deterministic hp hF

end GseaGallery
